import Mathlib

/-!
# Verification of the `matrix` package (dense-matrix algebra engine)

This file gives a shallow embedding, in Lean 4, of the parts of the
`matrix` Python package that the specification claims are about:

* the 1-indexed / inclusive-stop slice-index translation layer
  (`matrix/utils.py`: `adjust_slice`, `slice_length`, `slice_index`,
  `original_slice`),
* the matrix store (`matrix/matrix.py`: `Matrix.__init__`, `resize`
  (pad path), `__getitem__` (block slice), `__or__`, `__ior__`,
  `__mul__`, `__truediv__`, `_round`, `reduce`, `determinant`),
* the Row/Column view layer (`matrix/components/bases.py`,
  `rows.py`, `columns.py`): stamp-based invalidation, the elementwise
  and in-place operations, equality, deletion of rows/columns.

Modelling conventions:

* `Element` (a subclass of Python's arbitrary-precision `decimal.Decimal`)
  is modelled as `ℚ`.  On every concrete input used in a theorem below,
  the Decimal operations performed by the code are exact, so the model
  agrees with the implementation there.
* Python `round` on a `Decimal` (no `ndigits`) rounds half-to-even and
  returns an integer; it is modelled by `pyRound`.
* Fallible code returns `Except PyErr _`; a raised exception is an
  `.error`.  Since the embedding is pure, an operation that raises
  before mutating is simply an `.error` result with the input state
  untouched.
* A view's `__size_hash` field stores `hash(matrix.size)`; it is
  modelled by the `(nrow, ncol)` pair itself (CPython's tuple hash is
  treated as injective on these small pairs).
-/

namespace MatrixPy

-- Batteries marks the `Rat` field operations `@[irreducible]`, which
-- blocks `decide` on concrete rational computations; restore the
-- default reducibility for them so concrete evaluations reduce.
attribute [local semireducible] Rat.add Rat.mul Rat.sub Rat.inv

/-- The exception classes raised by the package (`matrix/exceptions.py`
plus the built-ins it raises), each carrying the exception message. -/
inductive PyErr where
  /-- Python `ValueError` (the spec's RangeError is raised as this). -/
  | valueError (msg : String)
  /-- Python `TypeError`. -/
  | typeError (msg : String)
  /-- Python `IndexError`. -/
  | indexError (msg : String)
  /-- `matrix.exceptions.InvalidDimension` (the spec's EmptyMatrixError
  is raised as this class). -/
  | invalidDimension (msg : String)
  /-- `matrix.exceptions.BrokenMatrixView` (the spec's ViewInvalidated). -/
  | brokenMatrixView (msg : String)
  /-- `matrix.exceptions.ZeroDeterminant`. -/
  | zeroDeterminant (msg : String)
  /-- `decimal.DivisionByZero`, raised by Decimal division by zero. -/
  | decimalDivisionByZero
deriving Repr, DecidableEq

/-- Decidable equality for `Except` results (used to settle concrete
evaluations by `decide`). -/
instance {ε α : Type _} [DecidableEq ε] [DecidableEq α] :
    DecidableEq (Except ε α) := fun x y =>
  match x, y with
  | .ok a, .ok b => decidable_of_iff (a = b) (by simp)
  | .error e, .error f => decidable_of_iff (e = f) (by simp)
  | .ok _, .error _ => isFalse (by simp)
  | .error _, .ok _ => isFalse (by simp)

/-! ## The slice translation layer (`matrix/utils.py`) -/

/-- A Python `slice` object as accepted by `adjust_slice`: each of
`start`, `stop`, `step` is an integer or `None` (omitted). -/
structure PySlice where
  start : Option Int
  stop : Option Int
  step : Option Int
deriving Repr, DecidableEq

/-- An **adjusted** slice as returned by `adjust_slice`: a 0-based
half-open range with a positive step. -/
structure AdjSlice where
  start : Nat
  stop : Nat
  step : Nat
deriving Repr, DecidableEq

/-- `None is not x < 1` — the field is given and less than 1. -/
def givenLtOne : Option Int → Bool
  | none => false
  | some x => x < 1

/-- `s.stop is None` while `None is not s.start > length`. -/
def startPastLength (s : PySlice) (length : Nat) : Bool :=
  s.stop == none &&
    match s.start with
    | none => false
    | some a => (length : Int) < a

/-- `None is not s.start > s.stop` (with `stop` known to be given). -/
def startGtStop (s : PySlice) : Bool :=
  match s.start, s.stop with
  | some a, some b => b < a
  | _, _ => false

/-- `adjust_slice(s, length)` from `matrix/utils.py`.

Changes a slice for a 1-indexed sequence to the equivalent 0-indexed
form.  Raises `ValueError` when a given field is less than 1, when
`stop` is omitted but `start` exceeds `length`, or when `start` and
`stop` are both given with `start > stop`.  Otherwise it applies
CPython's `slice.indices(length)` (specialised here to the positive
fields guaranteed by the guards) and lowers `start` by one, flooring
at 0; `stop` is left as produced by `indices` (the 1-indexed stop is
inclusive).  The `%r`-formatted slice display in the messages is
omitted from the model. -/
def adjustSlice (s : PySlice) (length : Nat) : Except PyErr AdjSlice :=
  if givenLtOne s.start || givenLtOne s.stop || givenLtOne s.step then
    .error (.valueError "'start', 'stop' or 'step' is less than 1.")
  else if startPastLength s length then
    .error (.valueError "'start' of slice is out of range (max: length).")
  else if startGtStop s then
    .error (.valueError "'start' > 'stop' in slice.")
  else
    -- `s.indices(length)`: the guards ensure every given field is ≥ 1,
    -- so the negative-index branches of CPython's algorithm are dead.
    let step := (s.step.getD 1).toNat
    let start := match s.start with
      | none => 0
      | some a => min a.toNat length
    let stop := match s.stop with
      | none => length
      | some b => min b.toNat length
    .ok ⟨start - 1, stop, step⟩

/-- `slice_length(s)` from `matrix/utils.py`: the number of items
selected by an adjusted slice, `ceil((stop - start) / step)` (as a
natural-number ceiling division; all adjusted slices have
`start < stop` and `step ≥ 1`). -/
def sliceLength (s : AdjSlice) : Nat :=
  (s.stop - s.start + s.step - 1) / s.step

/-- `slice_index(s, index)` from `matrix/utils.py`: the index, in the
original sequence, of element `index` of the sequence produced by the
adjusted slice `s`. -/
def sliceIndex (s : AdjSlice) (index : Nat) : Nat :=
  s.start + index * s.step

/-- `original_slice(s1, s2)` from `matrix/utils.py`: the equivalent of
the adjusted slice `s2` (over the sequence produced by `s1`) for the
original sequence sliced by `s1`. -/
def originalSlice (s1 s2 : AdjSlice) : AdjSlice :=
  ⟨sliceIndex s1 s2.start, sliceIndex s1 (s2.stop - 1) + 1, s1.step * s2.step⟩

/-- Python list slicing `xs[s]` for an adjusted slice (positive step):
the elements at indices `start`, `start + step`, … below `stop`,
clamped to the length of the list. -/
def pyListSlice (s : AdjSlice) (xs : List α) : List α :=
  (List.range (sliceLength s)).filterMap (fun k => xs.get? (sliceIndex s k))

/-- The invariant of slices produced by `adjust_slice(·, n)`: a
nonempty 0-based half-open range with positive step ending within the
sequence. -/
def IsAdjustedFor (s : AdjSlice) (n : Nat) : Prop :=
  s.start < s.stop ∧ s.stop ≤ n ∧ 1 ≤ s.step

instance (s : AdjSlice) (n : Nat) : Decidable (IsAdjustedFor s n) := by
  unfold IsAdjustedFor; infer_instance

/-! ## Rounding (`ROUND_LIMIT`, `_round`, `_rounded`) -/

/-- `Element("1e-12")`, the default negligibility limit
(`ROUND_LIMIT = 12` in `matrix/utils.py`). -/
def roundLimit : ℚ := 1 / 10 ^ 12

/-- Python `round` on a `Decimal` with no `ndigits`: round to the
nearest integer, ties to even. -/
def pyRound (x : ℚ) : Int :=
  let f := ⌊x⌋
  let r := x - f
  if r < 1 / 2 then f
  else if 1 / 2 < r then f + 1
  else if 2 ∣ f then f else f + 1

/-- One entry of `_round` (`matrix/matrix.py`) / `_rounded`
(`matrix/components/bases.py`): replace `x` by `round(x)` when
`0 < abs(x - round(x)) < limit`. -/
def snapEntry (limit : ℚ) (x : ℚ) : ℚ :=
  if 0 < |x - pyRound x| ∧ |x - pyRound x| < limit then (pyRound x : ℚ) else x

/-- `_rounded(row_col)` from `matrix/components/bases.py`. -/
def pyRounded (l : List ℚ) : List ℚ := l.map (snapEntry roundLimit)

/-! ## The Matrix store (`matrix/matrix.py`) -/

/-- The `Matrix` store: the mangled fields `__array`, `__nrow`,
`__ncol`.  The three fields are stored separately, exactly as in the
source (so an operation can leave them inconsistent). -/
structure PyMatrix where
  array : List (List ℚ)
  nrow : Nat
  ncol : Nat
deriving Repr, DecidableEq

/-- `Matrix.size`: the `(nrow, ncol)` pair. -/
def PyMatrix.size (m : PyMatrix) : Nat × Nat := (m.nrow, m.ncol)

/-- The data-model invariants (§3 of the spec): `len(data) == nrow`,
every row has length `ncol`, and `nrow, ncol ≥ 1`. -/
def MatrixInv (m : PyMatrix) : Prop :=
  m.array.length = m.nrow ∧ (∀ r ∈ m.array, r.length = m.ncol) ∧
    1 ≤ m.nrow ∧ 1 ≤ m.ncol

instance (m : PyMatrix) : Decidable (MatrixInv m) := by
  unfold MatrixInv; infer_instance

/-- `_round(matrix)` from `matrix/matrix.py` with the default
`ndigits` (in-place in the source; here the updated store). -/
def pyRoundMatrix (m : PyMatrix) : PyMatrix :=
  { m with array := m.array.map (fun row => row.map (snapEntry roundLimit)) }

/-- `min(lengths)` over the rows of a 2-D array (Python `min` of a
nonempty list; 0 for the empty outer list, which the caller rejects). -/
def minLen (rows : List (List ℚ)) : Nat :=
  match rows.map List.length with
  | [] => 0
  | a :: t => t.foldl min a

/-- `max(lengths)` over the rows of a 2-D array. -/
def maxLen (rows : List (List ℚ)) : Nat :=
  match rows.map List.length with
  | [] => 0
  | a :: t => t.foldl max a

/-- `Matrix(rows_array, cols_zfill)` from `matrix/matrix.py` for a 2-D
iterable first argument (which routes through `valid_2D_iterable` of
`matrix/utils.py`; the element-type checks there are enforced by the
`ℚ` typing).  The `zfill` path of the source executes
`self.resize(ncol=maxlen, pad_rows=True)`, whose only effect is to
right-pad every row with zeros to `maxlen` and set `ncol = maxlen`
(its "row longer than ncol" guard can never fire for `ncol = maxlen`);
it is inlined here. -/
def fromArray (rows : List (List ℚ)) (zfill : Bool) : Except PyErr PyMatrix :=
  if rows.isEmpty then .error (.typeError "The given iterable is empty.")
  else if maxLen rows = 0 then .error (.valueError "The inner iterables are empty.")
  else if minLen rows = maxLen rows then .ok ⟨rows, rows.length, maxLen rows⟩
  else if zfill then
    .ok ⟨rows.map (fun r => r ++ List.replicate (maxLen rows - r.length) 0),
      rows.length, maxLen rows⟩
  else
    .error (.valueError
      "'zfill' should be `True` when the array has variable row lengths.")

/-- `Matrix.__eq__`: equal sizes and equal underlying arrays. -/
def matrixEq (m1 m2 : PyMatrix) : Bool :=
  m1.size == m2.size && m1.array == m2.array

/-- `Matrix.__mul__` (scalar multiplication): multiply every entry,
then apply the internal `_round`. -/
def mulScalar (m : PyMatrix) (c : ℚ) : PyMatrix :=
  pyRoundMatrix ⟨m.array.map (fun row => row.map (· * c)), m.nrow, m.ncol⟩

/-- `Matrix.__truediv__` (scalar division): divide every entry, then
apply the internal `_round`.  Decimal division by zero raises. -/
def divScalar (m : PyMatrix) (c : ℚ) : Except PyErr PyMatrix :=
  if c = 0 then .error .decimalDivisionByZero
  else .ok (pyRoundMatrix ⟨m.array.map (fun row => row.map (· / c)), m.nrow, m.ncol⟩)

/-- The `extend` loop of `Matrix.__or__`:
`for row1, row2 in zip(new.__array, other.__array): row1.extend(row2)`
(rows beyond the shorter operand are left unchanged by `zip`). -/
def extendRows : List (List ℚ) → List (List ℚ) → List (List ℚ)
  | xs, [] => xs
  | [], _ => []
  | x :: xs, y :: ys => (x ++ y) :: extendRows xs ys

/-- `Matrix.__or__` (matrix augmentation). -/
def mOr (m other : PyMatrix) : Except PyErr PyMatrix :=
  if m.nrow ≠ other.nrow then
    .error (.invalidDimension "The number of rows the matrices must be equal.")
  else .ok ⟨extendRows m.array other.array, m.nrow, m.ncol + other.ncol⟩

/-- `Matrix.__ior__` (in-place augmentation): on success the source
executes `self.__array[:] = result.__array` and returns `self`; the
`__nrow` and `__ncol` fields of `self` are left untouched. -/
def mIor (m other : PyMatrix) : Except PyErr PyMatrix :=
  match mOr m other with
  | .ok r => .ok ⟨r.array, m.nrow, m.ncol⟩
  | .error e => .error e

/-! ## The row-reduction engine (`reduce`, `determinant`) -/

/-- `array[i]` (rows are only read at indices the source guarantees
are in range; `getD` keeps the model total). -/
def rowAt (a : List (List ℚ)) (i : Nat) : List ℚ := a.getD i []

/-- `array[i][k]`. -/
def entryAt (a : List (List ℚ)) (i k : Nat) : ℚ := (a.getD i []).getD k 0

/-- The `for i in range(j+1, nrow): if abs(array[i][k]) > limit: … break`
search in `reduce`: the first row below `j` with a non-negligible
entry in column `k`. -/
def firstNonzeroBelow (limit : ℚ) (a : List (List ℚ)) (j k nrow : Nat) : Option Nat :=
  (List.range' (j + 1) (nrow - (j + 1))).find? (fun i => limit < |entryAt a i k|)

/-- `array.insert(dst, array.pop(src))`. -/
def popInsert (src dst : Nat) (a : List (List ℚ)) : List (List ℚ) :=
  (a.eraseIdx src).insertIdx dst (rowAt a src)

/-- The elimination loop of `reduce`: for every row `i` strictly below
the pivot row `j` (and below `nrow`), if `abs(array[i][k]) > limit`,
replace it by `array[i] - (array[i][k]/array[j][k]) * array[j]`
(the pivot row itself is never written, so the row updates are
independent). -/
def eliminateBelow (limit : ℚ) (j k nrow : Nat) (a : List (List ℚ)) : List (List ℚ) :=
  let pivotRow := rowAt a j
  let piv := entryAt a j k
  (List.range a.length).map (fun i =>
    let row := rowAt a i
    if j < i ∧ i < nrow ∧ limit < |row.getD k 0| then
      List.zipWith (fun x y => x - y * (row.getD k 0 / piv)) row pivotRow
    else row)

/-- The while-loop of `reduce` in `matrix/matrix.py`.  The column
counter `k` strictly increases on every iteration, so the loop runs at
most `ncol` times; `fuel` (passed as `ncol` initially, an upper bound
on `ncol - k`) makes the recursion structural. -/
def reduceAux (limit : ℚ) (nrow ncol : Nat) :
    Nat → Nat → Nat → List (List ℚ) → List (List ℚ)
  | 0, _, _, a => a
  | fuel + 1, j, k, a =>
    if k < ncol ∧ j + 1 < nrow then
      if |entryAt a j k| < limit then
        match firstNonzeroBelow limit a j k nrow with
        | none =>
          -- all elements below (j, k) are negligible: next column
          reduceAux limit nrow ncol fuel j (k + 1) a
        | some i =>
          let a' :=
            if ((rowAt a j).drop (k + 1)).any (fun x => x != 0) then
              -- move row i above row j
              popInsert i j a
            else
              -- row j is a zero row: move it to the bottom, then make
              -- sure the row now at j is the row previously found at i
              let a1 := popInsert j nrow a
              if |entryAt a1 j k| < limit then popInsert (i - 1) j a1 else a1
          reduceAux limit nrow ncol fuel (j + 1) (k + 1)
            (eliminateBelow limit j k nrow a')
      else
        reduceAux limit nrow ncol fuel (j + 1) (k + 1)
          (eliminateBelow limit j k nrow a)
    else a

/-- `reduce(matrix, as_square)` from `matrix/matrix.py`: row-reduce to
row-echelon form (forward elimination), then `_round`.  Note the
function manipulates `matrix._array` only — `nrow`/`ncol` are never
written — and performs no sign bookkeeping for the row moves. -/
def reducePy (m : PyMatrix) (asSquare : Bool) : PyMatrix :=
  let n := if m.ncol = m.nrow then m.nrow
    else if asSquare then min m.nrow m.ncol else m.nrow
  let c := if m.ncol = m.nrow then m.nrow
    else if asSquare then min m.nrow m.ncol else m.ncol
  pyRoundMatrix ⟨reduceAux roundLimit n c c 0 0 m.array, m.nrow, m.ncol⟩

/-- `Matrix.determinant`: require a square matrix, `reduce` a copy,
take the product of the diagonal of the reduced array, and snap the
product to `round(det)` when within `1e-12` of it. -/
def determinantPy (m : PyMatrix) : Except PyErr ℚ :=
  if m.nrow ≠ m.ncol then
    .error (.invalidDimension "This matrix in non-square, hence has no determinant.")
  else
    let r := reducePy m false
    let det := (r.array.enum.map (fun p => p.2.getD p.1 0)).prod
    .ok (if |det - pyRound det| < roundLimit then (pyRound det : ℚ) else det)

/-! ## Views (`matrix/components/bases.py`, `rows.py`, `columns.py`) -/

/-- The state of a `Row` or `Column` view: the 0-based `__index` and
the `__size_hash` stamp captured at construction (`hash(matrix.size)`,
modelled by the size pair itself). -/
structure RCView where
  index : Nat
  stamp : Nat × Nat
deriving Repr, DecidableEq

/-- The message of `RowColumn.__validity_check` (the `%r` view display
is omitted). -/
def brokenMsg : String :=
  "The matrix has been resized after this matrix-view was created."

/-- `RowColumn.__validity_check`: fail with `BrokenMatrixView` when the
stamp no longer matches the live matrix dimensions. -/
def validityCheck (m : PyMatrix) (v : RCView) : Except PyErr Unit :=
  if v.stamp ≠ m.size then .error (.brokenMatrixView brokenMsg) else .ok ()

/-- `Row._fast_iter`: `iter(matrix._array[index])`. -/
def fastIterRow (m : PyMatrix) (v : RCView) : List ℚ := m.array.getD v.index []

/-- `Column._fast_iter`: `iter([row[index] for row in matrix._array])`. -/
def fastIterCol (m : PyMatrix) (v : RCView) : List ℚ :=
  m.array.map (fun r => r.getD v.index 0)

/-- `Row.__len__`: validity check, then `matrix.ncol`. -/
def rowLen (m : PyMatrix) (v : RCView) : Except PyErr Nat := do
  let _ ← validityCheck m v
  pure m.ncol

/-- `Column.__len__`: validity check, then `matrix.nrow`. -/
def colLen (m : PyMatrix) (v : RCView) : Except PyErr Nat := do
  let _ ← validityCheck m v
  pure m.nrow

/-- `RowColumn.__add__` / `__sub__` with an iterable operand: validity
check, then `valid_container(other, len(self))` (which checks the
length), then the pointwise operation followed by `_rounded`. -/
def rcBinSeq (op : ℚ → ℚ → ℚ) (len_ : PyMatrix → RCView → Except PyErr Nat)
    (fastIter : PyMatrix → RCView → List ℚ)
    (m : PyMatrix) (v : RCView) (other : List ℚ) : Except PyErr (List ℚ) := do
  let _ ← validityCheck m v
  let n ← len_ m v
  if other.length ≠ n then
    throw (.valueError "The iterable is not of an appropriate length.")
  pure (pyRounded (List.zipWith op (fastIter m v) other))

/-- `RowColumn.__matmul__` (pointwise multiplication) with an iterable
operand.  The source performs **no** explicit validity check here; the
`len(self)` call inside `valid_container(other, len(self))` performs it. -/
def rcMatmulSeq (len_ : PyMatrix → RCView → Except PyErr Nat)
    (fastIter : PyMatrix → RCView → List ℚ)
    (m : PyMatrix) (v : RCView) (other : List ℚ) : Except PyErr (List ℚ) := do
  let n ← len_ m v
  if other.length ≠ n then
    throw (.valueError "The iterable is not of an appropriate length.")
  pure (pyRounded (List.zipWith (· * ·) (fastIter m v) other))

/-- `RowColumn.__mul__` (scalar multiplication). -/
def rcMulScalar (fastIter : PyMatrix → RCView → List ℚ)
    (m : PyMatrix) (v : RCView) (c : ℚ) : Except PyErr (List ℚ) := do
  let _ ← validityCheck m v
  pure (pyRounded ((fastIter m v).map (· * c)))

/-- `RowColumn.__truediv__` with a real-number operand (scalar
division); Decimal division by zero raises. -/
def rcDivScalar (fastIter : PyMatrix → RCView → List ℚ)
    (m : PyMatrix) (v : RCView) (c : ℚ) : Except PyErr (List ℚ) := do
  let _ ← validityCheck m v
  if c = 0 then throw .decimalDivisionByZero
  else pure (pyRounded ((fastIter m v).map (· / c)))

/-- `Row.__getitem__` with an integer subscript (1-indexed). -/
def rowGetInt (m : PyMatrix) (v : RCView) (i : Int) : Except PyErr ℚ := do
  let _ ← validityCheck m v
  if 0 < i ∧ i ≤ (m.ncol : Int) then
    pure ((m.array.getD v.index []).getD (i - 1).toNat 0)
  else throw (.indexError "Index out of range.")

/-- `Column.__getitem__` with an integer subscript (1-indexed). -/
def colGetInt (m : PyMatrix) (v : RCView) (i : Int) : Except PyErr ℚ := do
  let _ ← validityCheck m v
  if 0 < i ∧ i ≤ (m.nrow : Int) then
    pure ((m.array.getD (i - 1).toNat []).getD v.index 0)
  else throw (.indexError "Index out of range.")

/-- `Row.__iter__` (the sequence the `MatrixIter` will yield). -/
def rowIter (m : PyMatrix) (v : RCView) : Except PyErr (List ℚ) := do
  let _ ← validityCheck m v
  pure (m.array.getD v.index [])

/-- `Column.__iter__`. -/
def colIter (m : PyMatrix) (v : RCView) : Except PyErr (List ℚ) := do
  let _ ← validityCheck m v
  pure (m.array.map (fun r => r.getD v.index 0))

/-- `Row.__contains__`. -/
def rowContains (m : PyMatrix) (v : RCView) (x : ℚ) : Except PyErr Bool := do
  let _ ← validityCheck m v
  pure (decide (x ∈ m.array.getD v.index []))

/-- `Column.__contains__`: `any(item == row[index] for row in array)`. -/
def colContains (m : PyMatrix) (v : RCView) (x : ℚ) : Except PyErr Bool := do
  let _ ← validityCheck m v
  pure (m.array.any (fun r => r.getD v.index 0 == x))

/-- `Row.__eq__`.  `sameObj` models the `self.__matrix is other.__matrix`
object-identity test.  Note that the source reads
`rhs = other.__matrix._array[self.__index]` — `other`'s matrix is
indexed with **`self`'s** index (and raises `IndexError` when that
index is out of range in `other`'s matrix). -/
def rowEqPy (m1 : PyMatrix) (v1 : RCView) (m2 : PyMatrix) (v2 : RCView)
    (sameObj : Bool) : Except PyErr Bool := do
  let _ ← validityCheck m1 v1
  if sameObj ∧ v1.index = v2.index then pure true
  else if v1.index < m2.array.length then
    pure (m1.array.getD v1.index [] == m2.array.getD v1.index [])
  else throw (.indexError "list index out of range")

/-- `Column.__eq__`: compares `r1[i1] == r2[i2]` over
`zip(m1._array, m2._array)`. -/
def colEqPy (m1 : PyMatrix) (v1 : RCView) (m2 : PyMatrix) (v2 : RCView)
    (sameObj : Bool) : Except PyErr Bool := do
  let _ ← validityCheck m1 v1
  if sameObj ∧ v1.index = v2.index then pure true
  else
    pure ((List.zipWith (fun r1 r2 => r1.getD v1.index 0 == r2.getD v2.index 0)
      m1.array m2.array).all id)

/-- The write-back of `Row.__iadd__` etc.:
`self.__matrix._array[self.__index] = result`. -/
def rowSetList (m : PyMatrix) (v : RCView) (res : List ℚ) : PyMatrix :=
  { m with array := m.array.set v.index res }

/-- The write-back of `Column.__iadd__` etc.:
`self.__matrix.columns[self.__index + 1] = result`, which writes
`row[index] = element` for `row, element in zip(array, result)`. -/
def colSetList (m : PyMatrix) (v : RCView) (res : List ℚ) : PyMatrix :=
  { m with array := List.zipWith (fun r e => r.set v.index e) m.array res }

/-- The non-trivial `Row`/`Column` operations named by the spec:
indexing, length, iteration, equality, containment, addition,
subtraction, scalar multiplication, elementwise multiplication,
division, and the in-place variants. -/
inductive RCOp where
  | getItem (i : Int)
  | length
  | iteration
  | equality (m2 : PyMatrix) (v2 : RCView) (sameObj : Bool)
  | containment (x : ℚ)
  | addition (other : List ℚ)
  | subtraction (other : List ℚ)
  | scalarMul (c : ℚ)
  | elementwiseMul (other : List ℚ)
  | division (c : ℚ)
  | iAdd (other : List ℚ)
  | iSub (other : List ℚ)
  | iScalarMul (c : ℚ)
  | iElementwiseMul (other : List ℚ)
  | iDiv (c : ℚ)

/-- The possible results of a view operation. -/
inductive RCResult where
  | elem (q : ℚ)
  | count (n : Nat)
  | seq (l : List ℚ)
  | flag (b : Bool)
  | store (m : PyMatrix)

/-- Dispatch an operation on a `Row` view. -/
def runRowOp (op : RCOp) (m : PyMatrix) (v : RCView) : Except PyErr RCResult :=
  match op with
  | .getItem i => (rowGetInt m v i).map .elem
  | .length => (rowLen m v).map .count
  | .iteration => (rowIter m v).map .seq
  | .equality m2 v2 so => (rowEqPy m v m2 v2 so).map .flag
  | .containment x => (rowContains m v x).map .flag
  | .addition o => (rcBinSeq (· + ·) rowLen fastIterRow m v o).map .seq
  | .subtraction o => (rcBinSeq (· - ·) rowLen fastIterRow m v o).map .seq
  | .scalarMul c => (rcMulScalar fastIterRow m v c).map .seq
  | .elementwiseMul o => (rcMatmulSeq rowLen fastIterRow m v o).map .seq
  | .division c => (rcDivScalar fastIterRow m v c).map .seq
  | .iAdd o => (rcBinSeq (· + ·) rowLen fastIterRow m v o).map (fun r => .store (rowSetList m v r))
  | .iSub o => (rcBinSeq (· - ·) rowLen fastIterRow m v o).map (fun r => .store (rowSetList m v r))
  | .iScalarMul c => (rcMulScalar fastIterRow m v c).map (fun r => .store (rowSetList m v r))
  | .iElementwiseMul o => (rcMatmulSeq rowLen fastIterRow m v o).map (fun r => .store (rowSetList m v r))
  | .iDiv c => (rcDivScalar fastIterRow m v c).map (fun r => .store (rowSetList m v r))

/-- Dispatch an operation on a `Column` view. -/
def runColOp (op : RCOp) (m : PyMatrix) (v : RCView) : Except PyErr RCResult :=
  match op with
  | .getItem i => (colGetInt m v i).map .elem
  | .length => (colLen m v).map .count
  | .iteration => (colIter m v).map .seq
  | .equality m2 v2 so => (colEqPy m v m2 v2 so).map .flag
  | .containment x => (colContains m v x).map .flag
  | .addition o => (rcBinSeq (· + ·) colLen fastIterCol m v o).map .seq
  | .subtraction o => (rcBinSeq (· - ·) colLen fastIterCol m v o).map .seq
  | .scalarMul c => (rcMulScalar fastIterCol m v c).map .seq
  | .elementwiseMul o => (rcMatmulSeq colLen fastIterCol m v o).map .seq
  | .division c => (rcDivScalar fastIterCol m v c).map .seq
  | .iAdd o => (rcBinSeq (· + ·) colLen fastIterCol m v o).map (fun r => .store (colSetList m v r))
  | .iSub o => (rcBinSeq (· - ·) colLen fastIterCol m v o).map (fun r => .store (colSetList m v r))
  | .iScalarMul c => (rcMulScalar fastIterCol m v c).map (fun r => .store (colSetList m v r))
  | .iElementwiseMul o => (rcMatmulSeq colLen fastIterCol m v o).map (fun r => .store (colSetList m v r))
  | .iDiv c => (rcDivScalar fastIterCol m v c).map (fun r => .store (colSetList m v r))

/-- Operand validity for a `Row` operation on a view with index `i`
(in-range subscripts, matching operand lengths, nonzero divisors,
in-range cross-matrix equality); under these the operation succeeds on
a fresh view. -/
def RowOpValid (op : RCOp) (m : PyMatrix) (i : Nat) : Prop :=
  match op with
  | .getItem k => 0 < k ∧ k ≤ (m.ncol : Int)
  | .length | .iteration | .containment _ | .scalarMul _ | .iScalarMul _ => True
  | .equality m2 _ _ => i < m2.array.length
  | .addition o | .subtraction o | .elementwiseMul o => o.length = m.ncol
  | .iAdd o | .iSub o | .iElementwiseMul o => o.length = m.ncol
  | .division c | .iDiv c => c ≠ 0

/-- Operand validity for a `Column` operation. -/
def ColOpValid (op : RCOp) (m : PyMatrix) (_i : Nat) : Prop :=
  match op with
  | .getItem k => 0 < k ∧ k ≤ (m.nrow : Int)
  | .length | .iteration | .containment _ | .scalarMul _ | .iScalarMul _ => True
  | .equality _ _ _ => True
  | .addition o | .subtraction o | .elementwiseMul o => o.length = m.nrow
  | .iAdd o | .iSub o | .iElementwiseMul o => o.length = m.nrow
  | .division c | .iDiv c => c ≠ 0

/-- `Rows.__getitem__` with an integer subscript: a fresh `Row` view
stamped with the live size. -/
def rowsGetInt (m : PyMatrix) (i : Int) : Except PyErr RCView :=
  if 0 < i ∧ i ≤ (m.nrow : Int) then .ok ⟨(i - 1).toNat, m.size⟩
  else .error (.indexError "Index out of range.")

/-- `Columns.__getitem__` with an integer subscript: a fresh `Column`
view stamped with the live size. -/
def columnsGetInt (m : PyMatrix) (i : Int) : Except PyErr RCView :=
  if 0 < i ∧ i ≤ (m.ncol : Int) then .ok ⟨(i - 1).toNat, m.size⟩
  else .error (.indexError "Index out of range.")

/-! ## Deletion of rows and columns (`Rows.__delitem__`, `Columns.__delitem__`) -/

/-- Whether index `i` is selected by the adjusted slice `s`
(positive step). -/
def delSelected (s : AdjSlice) (i : Nat) : Bool :=
  s.start ≤ i && i < s.stop && (i - s.start) % s.step == 0

/-- Python `del xs[s]` for an adjusted slice: remove the selected
elements. -/
def pyDelSlice (s : AdjSlice) (xs : List α) : List α :=
  (List.range xs.length).filterMap
    (fun i => if delSelected s i then none else xs.get? i)

/-- `Rows.__delitem__` with an integer subscript. -/
def rowsDelIndex (m : PyMatrix) (i : Int) : Except PyErr PyMatrix :=
  if 0 < i ∧ i ≤ (m.nrow : Int) then
    if m.nrow = 1 then
      .error (.invalidDimension "Emptying the matrix isn't allowed.")
    else .ok ⟨m.array.eraseIdx (i - 1).toNat, m.nrow - 1, m.ncol⟩
  else .error (.indexError "Index out of range.")

/-- `Rows.__delitem__` with a slice subscript. -/
def rowsDelSlice (m : PyMatrix) (s : PySlice) : Except PyErr PyMatrix := do
  let a ← adjustSlice s m.nrow
  if sliceLength a = m.nrow then
    throw (.invalidDimension "Emptying the matrix isn't allowed.")
  pure ⟨pyDelSlice a m.array, m.nrow - sliceLength a, m.ncol⟩

/-- `Columns.__delitem__` with an integer subscript
(`del row[sub]` for every row). -/
def colsDelIndex (m : PyMatrix) (i : Int) : Except PyErr PyMatrix :=
  if 0 < i ∧ i ≤ (m.ncol : Int) then
    if m.ncol = 1 then
      .error (.invalidDimension "Emptying the matrix isn't allowed.")
    else .ok ⟨m.array.map (fun r => r.eraseIdx (i - 1).toNat), m.nrow, m.ncol - 1⟩
  else .error (.indexError "Index out of range.")

/-- `Columns.__delitem__` with a slice subscript
(`del row[sub]` for every row). -/
def colsDelSlice (m : PyMatrix) (s : PySlice) : Except PyErr PyMatrix := do
  let a ← adjustSlice s m.ncol
  if sliceLength a = m.ncol then
    throw (.invalidDimension "Emptying the matrix isn't allowed.")
  pure ⟨m.array.map (fun r => pyDelSlice a r), m.nrow, m.ncol - sliceLength a⟩

/-- A deletion request against the matrix's `rows`/`columns` views. -/
inductive DelOp where
  | rowIdx (i : Int)
  | rowSlice (s : PySlice)
  | colIdx (i : Int)
  | colSlice (s : PySlice)

/-- Run one deletion request. -/
def runDel (op : DelOp) (m : PyMatrix) : Except PyErr PyMatrix :=
  match op with
  | .rowIdx i => rowsDelIndex m i
  | .rowSlice s => rowsDelSlice m s
  | .colIdx i => colsDelIndex m i
  | .colSlice s => colsDelSlice m s

/-- The matrix after an attempted deletion: the new store on success,
the unchanged store when the operation raised (the source raises
before mutating anything). -/
def applyDel (m : PyMatrix) (op : DelOp) : PyMatrix :=
  match runDel op m with
  | .ok m' => m'
  | .error _ => m

/-! ## Slicing paths (`Rows.__getitem__`, `Columns.__getitem__`,
`Matrix.__getitem__` with a slice pair) -/

/-- The state of a `RowsSlice`/`ColumnsSlice` view
(`RowsColumnsSlice.__init__`). -/
structure RCSliceView where
  slice : AdjSlice
  length : Nat
  stamp : Nat × Nat
deriving Repr, DecidableEq

/-- `Rows.__getitem__` with a slice subscript. -/
def rowsGetSlice (m : PyMatrix) (s : PySlice) : Except PyErr RCSliceView :=
  (adjustSlice s m.nrow).map (fun a => ⟨a, sliceLength a, m.size⟩)

/-- `Columns.__getitem__` with a slice subscript. -/
def columnsGetSlice (m : PyMatrix) (s : PySlice) : Except PyErr RCSliceView :=
  (adjustSlice s m.ncol).map (fun a => ⟨a, sliceLength a, m.size⟩)

/-- `Matrix.__getitem__` with a tuple of slices: adjust the row slice
against `nrow` and the column slice against `ncol`, then construct a
new `Matrix` from the selected block
(`type(self)(row[col_slice] for row in self.__array[row_slice])`). -/
def matrixGetSlice (m : PyMatrix) (rs cs : PySlice) : Except PyErr PyMatrix := do
  let r ← adjustSlice rs m.nrow
  let c ← adjustSlice cs m.ncol
  fromArray ((pyListSlice r m.array).map (fun row => pyListSlice c row)) false

/-- Modelled from the spec (§4.5 and claim C9): *the nearest integer*
to `x` (unique whenever `x` is not exactly half-way, in particular
whenever `x` is within `10^-12` of an integer but not equal to it). -/
def nearestInt (x : ℚ) : Int := ⌊x + 1 / 2⌋

/-- Modelled from the spec's wording of the rounding policy (claim C9):
snap a computed value to **the nearest integer** when its distance from
it is strictly between `0` and `10^-12`; return it unchanged otherwise.
This is the specification-side map which `snapEntry` (the code-side
map, using Python's `round`) is compared against. -/
def specSnap (x : ℚ) : ℚ :=
  if 0 < |x - nearestInt x| ∧ |x - nearestInt x| < roundLimit
  then (nearestInt x : ℚ) else x

/-- `pat` is a prefix of `cs` (character lists). -/
def hasPrefixChars : List Char → List Char → Bool
  | [], _ => true
  | _ :: _, [] => false
  | p :: ps, c :: cs => p == c && hasPrefixChars ps cs

/-- `pat` occurs as a contiguous substring of the second list. -/
def hasSubstrChars (pat : List Char) : List Char → Bool
  | [] => hasPrefixChars pat []
  | c :: cs => hasPrefixChars pat (c :: cs) || hasSubstrChars pat cs

/-- An error message "names zfill" (claim C8) when it contains the
substring `zfill`. -/
def mentionsZfill (msg : String) : Bool :=
  hasSubstrChars "zfill".toList msg.toList

/-! ### Supporting lemmas about adjusted slices -/

theorem adjustSlice_isAdjustedFor {s : PySlice} {n : Nat} {r : AdjSlice}
    (hn : 0 < n) (h : adjustSlice s n = .ok r) : IsAdjustedFor r n := by
  unfold adjustSlice at h
  split at h
  · exact absurd h (by simp)
  · split at h
    · exact absurd h (by simp)
    · split at h
      · exact absurd h (by simp)
      · simp only [Except.ok.injEq] at h
        subst h
        rename_i hlt1 hoor hgt
        rcases s with ⟨st, sp, se⟩
        refine ⟨?_, ?_, ?_⟩
        · -- start < stop
          cases st <;> cases sp <;>
            simp_all [givenLtOne, startPastLength, startGtStop] <;> omega
        · -- stop ≤ n
          cases sp <;> simp_all [IsAdjustedFor] <;> omega
        · -- 1 ≤ step
          cases se <;> simp_all [givenLtOne] <;> omega

/-- Ceiling-division bound: `k < ⌈d / (t+1)⌉ ↔ k * (t+1) < d`. -/
theorem lt_ceilDiv_iff (d t k : Nat) : k < (d + t) / (t + 1) ↔ k * (t + 1) < d := by
  have h := Nat.le_div_iff_mul_le (x := k + 1) (y := d + t) (k := t + 1) (by omega)
  have h3 : (k + 1) * (t + 1) = k * (t + 1) + (t + 1) := by ring
  constructor
  · intro hk
    have h2 : (k + 1) * (t + 1) ≤ d + t := h.mp (by omega)
    rw [h3] at h2
    linarith
  · intro hk
    have h2 : (k + 1) * (t + 1) ≤ d + t := by rw [h3]; linarith
    have := h.mpr h2
    omega

/-- Membership in the half-open range, in terms of the index map. -/
theorem lt_sliceLength_iff {s : AdjSlice} (hstep : 1 ≤ s.step) (k : Nat) :
    k < sliceLength s ↔ sliceIndex s k < s.stop := by
  unfold sliceLength sliceIndex
  obtain ⟨t, ht⟩ := Nat.exists_eq_add_of_le hstep
  rw [ht]
  have h1 : s.stop - s.start + (1 + t) - 1 = (s.stop - s.start) + t := by omega
  rw [h1]
  have h2 := lt_ceilDiv_iff (s.stop - s.start) t k
  have h3 : t + 1 = 1 + t := by omega
  rw [h3] at h2
  rw [h2]
  generalize k * (1 + t) = K
  omega

theorem sliceLength_pos {s : AdjSlice} {n : Nat} (h : IsAdjustedFor s n) :
    0 < sliceLength s := by
  have h0 := h.1
  have := (lt_sliceLength_iff h.2.2 0).mpr (by unfold sliceIndex; omega)
  omega

theorem filterMap_length_of_all_some {α β : Type _} {f : α → Option β} :
    ∀ {l : List α}, (∀ a ∈ l, (f a).isSome) → (l.filterMap f).length = l.length
  | [], _ => rfl
  | a :: t, h => by
    obtain ⟨b, hb⟩ := Option.isSome_iff_exists.mp (h a (List.mem_cons_self a t))
    simp only [List.filterMap_cons, hb, List.length_cons]
    rw [filterMap_length_of_all_some (fun x hx => h x (List.mem_cons_of_mem a hx))]

theorem filterMap_get?_of_all_some {α β : Type _} {f : α → Option β} :
    ∀ {l : List α}, (∀ a ∈ l, (f a).isSome) →
      ∀ i, (l.filterMap f).get? i = (l.get? i).bind f
  | [], _, i => by simp
  | a :: t, h, i => by
    obtain ⟨b, hb⟩ := Option.isSome_iff_exists.mp (h a (List.mem_cons_self a t))
    cases i with
    | zero => simp [List.filterMap_cons, hb]
    | succ n =>
      simp only [List.filterMap_cons, hb, List.get?_cons_succ]
      exact filterMap_get?_of_all_some (fun x hx => h x (List.mem_cons_of_mem a hx)) n

theorem pyListSlice_all_some {s : AdjSlice} {xs : List α}
    (hstop : s.stop ≤ xs.length) (hstep : 1 ≤ s.step) :
    ∀ k ∈ List.range (sliceLength s), (xs.get? (sliceIndex s k)).isSome := by
  intro k hk
  have hk' : sliceIndex s k < xs.length :=
    lt_of_lt_of_le ((lt_sliceLength_iff hstep k).mp (List.mem_range.mp hk)) hstop
  exact Option.isSome_iff_exists.mpr ⟨_, List.get?_eq_get hk'⟩

theorem pyListSlice_length {s : AdjSlice} {xs : List α}
    (hstop : s.stop ≤ xs.length) (hstep : 1 ≤ s.step) :
    (pyListSlice s xs).length = sliceLength s := by
  unfold pyListSlice
  rw [filterMap_length_of_all_some (pyListSlice_all_some hstop hstep),
    List.length_range]

theorem pyListSlice_get? {s : AdjSlice} {xs : List α}
    (hstop : s.stop ≤ xs.length) (hstep : 1 ≤ s.step) (k : Nat) :
    (pyListSlice s xs).get? k =
      if k < sliceLength s then xs.get? (sliceIndex s k) else none := by
  unfold pyListSlice
  rw [filterMap_get?_of_all_some (pyListSlice_all_some hstop hstep) k]
  by_cases hk : k < sliceLength s
  · rw [List.get?_range hk, if_pos hk, Option.some_bind]
  · rw [List.get?_eq_none.mpr (by simpa using hk), if_neg hk, Option.none_bind]

theorem sliceLength_originalSlice {s1 s2 : AdjSlice} {n : Nat}
    (h1 : IsAdjustedFor s1 n) (h2 : IsAdjustedFor s2 (sliceLength s1)) :
    sliceLength (originalSlice s1 s2) = sliceLength s2 := by
  obtain ⟨ha1, _hb1, hp⟩ := h1
  obtain ⟨ha2, _hb2, hq⟩ := h2
  unfold sliceLength originalSlice sliceIndex
  simp only
  set p := s1.step with hpdef
  set q := s2.step with hqdef
  set e := s2.stop - 1 - s2.start with hedef
  have key1 : s1.start + (s2.stop - 1) * p + 1 - (s1.start + s2.start * p) =
      e * p + 1 := by
    have h3 : (s2.stop - 1) * p = (e + s2.start) * p := by
      congr 1; omega
    rw [h3, Nat.add_mul]
    omega
  rw [key1]
  have key2 : e * p + 1 + p * q - 1 = p * (e + q) := by
    have : p * (e + q) = e * p + p * q := by ring
    omega
  rw [key2, Nat.mul_div_mul_left _ _ (by omega : 0 < p)]
  congr 1
  omega

/-- **C6.** `matrix/utils.py` slice composition: for every sequence,
every adjusted slice `s1` over its length and every adjusted slice
`s2` over the length selected by `s1`, slicing by `s1` and then by
`s2` produces exactly the elements selected by `original_slice(s1, s2)`
directly from the original sequence; `slice_length(original_slice(s1, s2))`
equals `slice_length(s2)`; and element `i` of the subsequence produced
by `s1` is element `s1.start + i * s1.step` of the original sequence
(the index computed by `slice_index(s1, i)`). -/
theorem slice_composition_correct (xs : List ℚ) (s1 s2 : AdjSlice)
    (h1 : IsAdjustedFor s1 xs.length) (h2 : IsAdjustedFor s2 (sliceLength s1)) :
    pyListSlice s2 (pyListSlice s1 xs) = pyListSlice (originalSlice s1 s2) xs ∧
    sliceLength (originalSlice s1 s2) = sliceLength s2 ∧
    (∀ i, i < sliceLength s1 →
      (pyListSlice s1 xs).get? i = xs.get? (s1.start + i * s1.step) ∧
      sliceIndex s1 i = s1.start + i * s1.step) := by
  obtain ⟨ha1, hb1, hp⟩ := h1
  obtain ⟨ha2, hb2, hq⟩ := h2
  have hlen1 : (pyListSlice s1 xs).length = sliceLength s1 := pyListSlice_length hb1 hp
  have hLO : sliceLength (originalSlice s1 s2) = sliceLength s2 :=
    sliceLength_originalSlice ⟨ha1, hb1, hp⟩ ⟨ha2, hb2, hq⟩
  refine ⟨?_, hLO, ?_⟩
  · -- stop of the composed slice stays within the original sequence
    have hOstop : (originalSlice s1 s2).stop ≤ xs.length := by
      have hlt : s2.stop - 1 < sliceLength s1 := by
        have := sliceLength_pos (n := sliceLength s1) ⟨ha2, hb2, hq⟩
        omega
      have := (lt_sliceLength_iff hp (s2.stop - 1)).mp (by omega)
      unfold originalSlice
      simp only
      omega
    have hOstep : 1 ≤ (originalSlice s1 s2).step := by
      unfold originalSlice
      simp only
      exact Nat.one_le_iff_ne_zero.mpr (by positivity)
    apply List.ext
    intro k
    rw [pyListSlice_get? (by omega : s2.stop ≤ (pyListSlice s1 xs).length) hq k,
      pyListSlice_get? hOstop hOstep k, hLO]
    by_cases hk : k < sliceLength s2
    · rw [if_pos hk, if_pos hk]
      have hin : sliceIndex s2 k < sliceLength s1 := by
        have := (lt_sliceLength_iff hq k).mp hk
        omega
      rw [pyListSlice_get? hb1 hp (sliceIndex s2 k), if_pos hin]
      congr 1
      simp only [originalSlice, sliceIndex]
      ring
    · rw [if_neg hk, if_neg hk]
  · intro i hi
    refine ⟨?_, rfl⟩
    rw [pyListSlice_get? hb1 hp i, if_pos hi]
    rfl

/-- Witness for `slice_composition_correct` at `xs = [1,2,3,4,5,6]`,
`s1 = 1:6:2` (adjusted `⟨1,6,2⟩`, selecting `[2,4,6]`), `s2 = ⟨0,3,2⟩`
(selecting `[2,6]`). -/
theorem slice_composition_correct_witness :
    IsAdjustedFor ⟨1, 6, 2⟩ ([1, 2, 3, 4, 5, 6] : List ℚ).length ∧
    IsAdjustedFor ⟨0, 3, 2⟩ (sliceLength ⟨1, 6, 2⟩) ∧
    (pyListSlice ⟨0, 3, 2⟩ (pyListSlice ⟨1, 6, 2⟩ ([1, 2, 3, 4, 5, 6] : List ℚ)) =
      pyListSlice (originalSlice ⟨1, 6, 2⟩ ⟨0, 3, 2⟩) ([1, 2, 3, 4, 5, 6] : List ℚ) ∧
    sliceLength (originalSlice ⟨1, 6, 2⟩ ⟨0, 3, 2⟩) = sliceLength ⟨0, 3, 2⟩ ∧
    (∀ i, i < sliceLength ⟨1, 6, 2⟩ →
      (pyListSlice ⟨1, 6, 2⟩ ([1, 2, 3, 4, 5, 6] : List ℚ)).get? i =
        ([1, 2, 3, 4, 5, 6] : List ℚ).get? (1 + i * 2) ∧
      sliceIndex ⟨1, 6, 2⟩ i = 1 + i * 2)) :=
  ⟨by decide, by decide,
    slice_composition_correct [1, 2, 3, 4, 5, 6] ⟨1, 6, 2⟩ ⟨0, 3, 2⟩
      (by decide) (by decide)⟩

/-! ### C5: the error contract of `adjust_slice` -/

theorem givenLtOne_eq_true_iff (o : Option Int) :
    givenLtOne o = true ↔ ∃ a, o = some a ∧ a < 1 := by
  cases o <;> simp [givenLtOne]

theorem startPastLength_eq_true_iff (s : PySlice) (n : Nat) :
    startPastLength s n = true ↔
      (s.stop = none ∧ ∃ a, s.start = some a ∧ (n : Int) < a) := by
  rcases s with ⟨st, sp, se⟩
  cases st <;> cases sp <;> simp [startPastLength]

theorem startGtStop_eq_true_iff (s : PySlice) :
    startGtStop s = true ↔ ∃ a b, s.start = some a ∧ s.stop = some b ∧ b < a := by
  rcases s with ⟨st, sp, se⟩
  cases st <;> cases sp <;> simp [startGtStop]

theorem adjustSlice_error_iff_bool (s : PySlice) (n : Nat) :
    (∃ e, adjustSlice s n = .error e) ↔
      ((givenLtOne s.start || givenLtOne s.stop || givenLtOne s.step) = true ∨
        startPastLength s n = true ∨ startGtStop s = true) := by
  unfold adjustSlice
  split_ifs with h1 h2 h3
  · exact ⟨fun _ => Or.inl h1, fun _ => ⟨_, rfl⟩⟩
  · exact ⟨fun _ => Or.inr (Or.inl h2), fun _ => ⟨_, rfl⟩⟩
  · exact ⟨fun _ => Or.inr (Or.inr h3), fun _ => ⟨_, rfl⟩⟩
  · simp [h1, h2, h3]

/-- **C5.** For every slice whose `start`, `stop`, `step` fields are
each an integer or omitted, and every positive sequence length `n`,
`adjust_slice` fails with a RangeError-class error (`ValueError`)
exactly when some given field is less than 1, or `stop` is omitted
while `start` is given with `start > n`, or `start` and `stop` are
both given with `start > stop`; in every other case it returns a
0-based half-open range. -/
theorem adjust_slice_error_conditions (s : PySlice) (n : Nat) (hn : 0 < n) :
    ((∃ e, adjustSlice s n = .error e) ↔
      ((∃ a, s.start = some a ∧ a < 1) ∨ (∃ b, s.stop = some b ∧ b < 1) ∨
       (∃ c, s.step = some c ∧ c < 1) ∨
       (s.stop = none ∧ ∃ a, s.start = some a ∧ (n : Int) < a) ∨
       (∃ a b, s.start = some a ∧ s.stop = some b ∧ b < a))) ∧
    ((∀ e, adjustSlice s n ≠ .error e) → ∃ r, adjustSlice s n = .ok r) := by
  constructor
  · rw [adjustSlice_error_iff_bool]
    simp only [Bool.or_eq_true, givenLtOne_eq_true_iff, startPastLength_eq_true_iff,
      startGtStop_eq_true_iff]
    rw [or_assoc, or_assoc]
  · intro h
    cases hr : adjustSlice s n with
    | ok r => exact ⟨r, rfl⟩
    | error e => exact absurd hr (h e)

theorem adjust_slice_error_conditions_witness :
    (0 : Nat) < 3 ∧ ∃ e, adjustSlice ⟨some 0, none, none⟩ 3 = .error e :=
  ⟨by decide,
    ((adjust_slice_error_conditions ⟨some 0, none, none⟩ 3 (by decide)).1).mpr
      (Or.inl ⟨0, rfl, by decide⟩)⟩

/-! ### C8: construction from a 2-D array with `zfill` -/

theorem foldl_min_le_init : ∀ (t : List Nat) (a : Nat), t.foldl min a ≤ a
  | [], _ => le_refl _
  | b :: t, a => le_trans (foldl_min_le_init t (min a b)) (min_le_left a b)

theorem foldl_min_le_mem : ∀ (t : List Nat) (a x : Nat), x ∈ t → t.foldl min a ≤ x
  | b :: t, a, x, h => by
    rcases List.mem_cons.mp h with h | h
    · subst h
      exact le_trans (foldl_min_le_init t (min a x)) (min_le_right a x)
    · exact foldl_min_le_mem t (min a b) x h

theorem le_foldl_max_init : ∀ (t : List Nat) (a : Nat), a ≤ t.foldl max a
  | [], _ => le_refl _
  | b :: t, a => le_trans (le_max_left a b) (le_foldl_max_init t (max a b))

theorem le_foldl_max_mem : ∀ (t : List Nat) (a x : Nat), x ∈ t → x ≤ t.foldl max a
  | b :: t, a, x, h => by
    rcases List.mem_cons.mp h with h | h
    · subst h
      exact le_trans (le_max_right a x) (le_foldl_max_init t (max a x))
    · exact le_foldl_max_mem t (max a b) x h

theorem minLen_le_length {rows : List (List ℚ)} {r : List ℚ} (h : r ∈ rows) :
    minLen rows ≤ r.length := by
  unfold minLen
  cases rows with
  | nil => cases h
  | cons a t =>
    simp only [List.map_cons]
    rcases List.mem_cons.mp h with h | h
    · subst h; exact foldl_min_le_init _ _
    · exact foldl_min_le_mem _ _ _ (List.mem_map_of_mem List.length h)

theorem length_le_maxLen {rows : List (List ℚ)} {r : List ℚ} (h : r ∈ rows) :
    r.length ≤ maxLen rows := by
  unfold maxLen
  cases rows with
  | nil => cases h
  | cons a t =>
    simp only [List.map_cons]
    rcases List.mem_cons.mp h with h | h
    · subst h; exact le_foldl_max_init _ _
    · exact le_foldl_max_mem _ _ _ (List.mem_map_of_mem List.length h)

theorem length_eq_maxLen_of_min_eq_max {rows : List (List ℚ)} {r : List ℚ}
    (h : r ∈ rows) (heq : minLen rows = maxLen rows) : r.length = maxLen rows :=
  le_antisymm (length_le_maxLen h) (heq ▸ minLen_le_length h)

theorem le_foldl_min : ∀ (t : List Nat) (a x : Nat),
    x ≤ a → (∀ y ∈ t, x ≤ y) → x ≤ t.foldl min a
  | [], _, _, ha, _ => ha
  | b :: t, a, x, ha, h =>
    le_foldl_min t (min a b) x (le_min ha (h b (List.mem_cons_self b t)))
      (fun y hy => h y (List.mem_cons_of_mem b hy))

theorem foldl_max_le : ∀ (t : List Nat) (a x : Nat),
    a ≤ x → (∀ y ∈ t, y ≤ x) → t.foldl max a ≤ x
  | [], _, _, ha, _ => ha
  | b :: t, a, x, ha, h =>
    foldl_max_le t (max a b) x (max_le ha (h b (List.mem_cons_self b t)))
      (fun y hy => h y (List.mem_cons_of_mem b hy))

theorem minLen_eq_maxLen_of_const {rows : List (List ℚ)} {L : Nat}
    (hne : rows ≠ []) (h : ∀ r ∈ rows, r.length = L) :
    minLen rows = L ∧ maxLen rows = L := by
  cases rows with
  | nil => exact absurd rfl hne
  | cons a t =>
    have ha := h a (List.mem_cons_self a t)
    constructor
    · refine le_antisymm (ha ▸ minLen_le_length (List.mem_cons_self a t)) ?_
      unfold minLen
      simp only [List.map_cons]
      refine le_foldl_min _ _ _ (le_of_eq ha.symm) ?_
      intro y hy
      obtain ⟨r, hr, hry⟩ := List.mem_map.mp hy
      exact le_of_eq ((h r (List.mem_cons_of_mem a hr)).symm.trans hry)
    · refine le_antisymm ?_ (ha ▸ length_le_maxLen (List.mem_cons_self a t))
      unfold maxLen
      simp only [List.map_cons]
      refine foldl_max_le _ _ _ (le_of_eq ha) ?_
      intro y hy
      obtain ⟨r, hr, hry⟩ := List.mem_map.mp hy
      exact le_of_eq (hry.symm.trans (h r (List.mem_cons_of_mem a hr)))

theorem fromArray_zfill_ok (rows : List (List ℚ))
    (hne : rows ≠ []) (hmax : maxLen rows ≠ 0) :
    fromArray rows true =
      .ok ⟨rows.map (fun r => r ++ List.replicate (maxLen rows - r.length) 0),
        rows.length, maxLen rows⟩ := by
  unfold fromArray
  rw [if_neg (by simpa using hne), if_neg hmax]
  by_cases heq : minLen rows = maxLen rows
  · rw [if_pos heq]
    have harr : rows.map (fun r => r ++ List.replicate (maxLen rows - r.length) 0)
        = rows := by
      conv_rhs => rw [← List.map_id rows]
      apply List.map_congr_left
      intro r hr
      have := length_eq_maxLen_of_min_eq_max hr heq
      simp [this]
    rw [harr]
  · rw [if_neg heq, if_pos rfl]

theorem fromArray_const_ok (rows : List (List ℚ)) (L : Nat)
    (hne : rows ≠ []) (hL : 0 < L) (h : ∀ r ∈ rows, r.length = L) :
    fromArray rows false = .ok ⟨rows, rows.length, L⟩ := by
  obtain ⟨hmin, hmax⟩ := minLen_eq_maxLen_of_const hne h
  unfold fromArray
  rw [if_neg (by simpa using hne), if_neg (by omega), if_pos (by omega), hmax]

/-- **C8.** For every 2-D array of real numbers with at least one
non-empty row: if the row lengths are unequal and `zfill` is not true,
construction fails with an error whose message names "zfill"; if
`zfill` is true, construction succeeds and yields a matrix whose row
count is the number of source rows, whose column count is the length
of the longest source row, and in which every shorter row is
right-padded with zeros — in particular `Matrix([[1,2],[1]], True)`
equals the matrix `[[1,2],[1,0]]` (by `Matrix.__eq__`). -/
theorem construction_zfill_spec (rows : List (List ℚ))
    (hne : rows ≠ []) (hrow : ∃ r ∈ rows, r ≠ []) :
    ((∃ r1 ∈ rows, ∃ r2 ∈ rows, r1.length ≠ r2.length) →
      ∃ msg, fromArray rows false = .error (.valueError msg) ∧
        mentionsZfill msg = true) ∧
    (∃ m, fromArray rows true = .ok m ∧
      m.nrow = rows.length ∧ m.ncol = maxLen rows ∧
      m.array = rows.map (fun r => r ++ List.replicate (maxLen rows - r.length) 0)) ∧
    (∃ m2, fromArray [[1, 2], [1]] true = .ok m2 ∧
      matrixEq m2 ⟨[[1, 2], [1, 0]], 2, 2⟩ = true) := by
  obtain ⟨r0, hr0, hr0ne⟩ := hrow
  have hmax : maxLen rows ≠ 0 := by
    have h1 := length_le_maxLen hr0
    have h2 : r0.length ≠ 0 := by simpa using hr0ne
    omega
  refine ⟨?_, ⟨_, fromArray_zfill_ok rows hne hmax, rfl, rfl, rfl⟩,
    ⟨⟨[[1, 2], [1, 0]], 2, 2⟩, by decide, by decide⟩⟩
  rintro ⟨r1, hr1, r2, hr2, hne12⟩
  have hminmax : minLen rows ≠ maxLen rows := by
    intro heq
    have e1 := length_eq_maxLen_of_min_eq_max hr1 heq
    have e2 := length_eq_maxLen_of_min_eq_max hr2 heq
    exact hne12 (e1.trans e2.symm)
  have herr : fromArray rows false = .error (.valueError
      "'zfill' should be `True` when the array has variable row lengths.") := by
    unfold fromArray
    rw [if_neg (by simpa using hne), if_neg hmax, if_neg hminmax,
      if_neg (by simp)]
  exact ⟨_, herr, by decide⟩

theorem construction_zfill_spec_witness :
    ([[1, 2], [1]] : List (List ℚ)) ≠ [] ∧
    (∃ r ∈ ([[1, 2], [1]] : List (List ℚ)), r ≠ []) ∧
    (∃ m2, fromArray [[1, 2], [1]] true = .ok m2 ∧
      matrixEq m2 ⟨[[1, 2], [1, 0]], 2, 2⟩ = true) :=
  ⟨by decide, by decide,
    (construction_zfill_spec [[1, 2], [1]] (by decide) (by decide)).2.2⟩

/-! ### C9: the rounding policy of scalar multiplication and division -/

theorem pyRound_eq_of_close {x : ℚ} {k : Int} (h : |x - k| < 1 / 2) :
    pyRound x = k := by
  rw [abs_sub_lt_iff] at h
  obtain ⟨hl, hr⟩ := h
  unfold pyRound
  by_cases hx : (k : ℚ) ≤ x
  · have hf : ⌊x⌋ = k := by
      rw [Int.floor_eq_iff]
      constructor
      · exact hx
      · push_cast; linarith
    simp only [hf]
    rw [if_pos (by linarith)]
  · have hf : ⌊x⌋ = k - 1 := by
      rw [Int.floor_eq_iff]
      constructor
      · push_cast; linarith
      · push_cast; linarith
    simp only [hf]
    rw [if_neg (by push_cast; linarith), if_pos (by push_cast; linarith)]
    omega

theorem nearestInt_eq_of_close {x : ℚ} {k : Int} (h : |x - k| < 1 / 2) :
    nearestInt x = k := by
  rw [abs_sub_lt_iff] at h
  unfold nearestInt
  rw [Int.floor_eq_iff]
  constructor
  · linarith [h.2]
  · push_cast; linarith [h.1]

theorem roundLimit_lt_half : roundLimit < 1 / 2 := by
  unfold roundLimit; norm_num

theorem snapEntry_eq_specSnap (x : ℚ) : snapEntry roundLimit x = specSnap x := by
  unfold snapEntry specSnap
  by_cases h0 : x = (pyRound x : ℚ)
  · have hd : |x - (pyRound x : ℚ)| = 0 := by rw [← h0]; simp
    have hn : nearestInt x = pyRound x :=
      nearestInt_eq_of_close (by rw [hd]; norm_num)
    rw [hn]
  · by_cases hc : |x - (pyRound x : ℚ)| < roundLimit
    · have hclose : |x - (pyRound x : ℚ)| < 1 / 2 :=
        lt_trans hc roundLimit_lt_half
      have hn : nearestInt x = pyRound x := nearestInt_eq_of_close hclose
      rw [hn]
    · have hnspec : ¬(0 < |x - (nearestInt x : ℚ)| ∧
          |x - (nearestInt x : ℚ)| < roundLimit) := by
        rintro ⟨_, hq⟩
        have := pyRound_eq_of_close (k := nearestInt x)
          (lt_trans hq roundLimit_lt_half)
        rw [this] at hc
        exact hc hq
      rw [if_neg (fun hh => hc hh.2), if_neg hnspec]

/-- **C9.** For every matrix `M` and every real scalar `c`, each entry
of `M * c` (and, for `c ≠ 0`, of `M / c`) whose distance from its
nearest integer is strictly greater than `0` and strictly less than
`10^-12` is replaced by that nearest integer, and every other entry is
returned exactly as computed: the result entry at each position is
`specSnap` of the computed product/quotient. -/
theorem scalar_mul_div_rounding (m : PyMatrix) (c : ℚ) :
    ((mulScalar m c).array =
        m.array.map (fun row => row.map (fun x => specSnap (x * c))) ∧
      (mulScalar m c).nrow = m.nrow ∧ (mulScalar m c).ncol = m.ncol) ∧
    (c ≠ 0 → ∃ m', divScalar m c = .ok m' ∧
      m'.array = m.array.map (fun row => row.map (fun x => specSnap (x / c))) ∧
      m'.nrow = m.nrow ∧ m'.ncol = m.ncol) := by
  constructor
  · refine ⟨?_, rfl, rfl⟩
    unfold mulScalar pyRoundMatrix
    simp only [List.map_map]
    apply List.map_congr_left
    intro row _
    simp only [Function.comp, List.map_map]
    apply List.map_congr_left
    intro x _
    exact snapEntry_eq_specSnap (x * c)
  · intro hc
    refine ⟨pyRoundMatrix ⟨m.array.map (fun row => row.map (· / c)), m.nrow, m.ncol⟩,
      by unfold divScalar; rw [if_neg hc], ?_, rfl, rfl⟩
    unfold pyRoundMatrix
    simp only [List.map_map]
    apply List.map_congr_left
    intro row _
    simp only [Function.comp, List.map_map]
    apply List.map_congr_left
    intro x _
    exact snapEntry_eq_specSnap (x / c)

theorem scalar_mul_div_rounding_witness :
    (3 : ℚ) ≠ 0 ∧
    (∃ m', divScalar ⟨[[1, 2]], 1, 2⟩ (3 : ℚ) = .ok m' ∧
      m'.array = ([[1, 2]] : List (List ℚ)).map
        (fun row => row.map (fun x => specSnap (x / 3))) ∧
      m'.nrow = 1 ∧ m'.ncol = 2) :=
  ⟨by norm_num,
    (scalar_mul_div_rounding ⟨[[1, 2]], 1, 2⟩ 3).2 (by norm_num)⟩

/-! ### C3: `__ior__` breaks the data-model invariants (code bug) -/

/-- **C3 (code bug).** In-place augmentation `M |= N` does **not**
preserve the data-model invariants: `Matrix.__ior__` copies the rows
of the augmented result into `self.__array` but never updates
`self.__ncol`.  At `M = [[1]]`, `N = [[2]]` (both satisfying the
invariants), the copy-returning `M | N` satisfies the invariants, but
after `M |= N` the stored row has length 2 while `ncol` is still 1. -/
theorem ior_breaks_invariants :
    MatrixInv ⟨[[1]], 1, 1⟩ ∧ MatrixInv ⟨[[2]], 1, 1⟩ ∧
    mOr ⟨[[1]], 1, 1⟩ ⟨[[2]], 1, 1⟩ = .ok ⟨[[1, 2]], 1, 2⟩ ∧
    MatrixInv ⟨[[1, 2]], 1, 2⟩ ∧
    mIor ⟨[[1]], 1, 1⟩ ⟨[[2]], 1, 1⟩ = .ok ⟨[[1, 2]], 1, 1⟩ ∧
    ¬ MatrixInv ⟨[[1, 2]], 1, 1⟩ := by
  decide

/-! ### C4: `Row.__eq__` compares against the wrong row (code bug) -/

/-- **C4 (code bug).** `Row.__eq__` reads
`rhs = other.__matrix._array[self.__index]`, indexing `other`'s matrix
with `self`'s index.  For `r1 = ` row 1 of `M1 = [[7],[5]]` and
`r2 = ` row 2 of `M2 = [[9],[7]]` (distinct matrices, so the identity
branch is not taken): the element sequences of the two rows are equal
(`[7] = [7]`), so structural equality requires `True`, but the code
compares `[7]` with `M2`'s row **1** (`[9]`) and returns `False`.
`Column.__eq__`, by contrast, uses both indices. -/
theorem row_eq_wrong_index_bug :
    rowEqPy ⟨[[7], [5]], 2, 1⟩ ⟨0, (2, 1)⟩ ⟨[[9], [7]], 2, 1⟩ ⟨1, (2, 1)⟩ false
      = .ok false ∧
    (⟨[[7], [5]], 2, 1⟩ : PyMatrix).array.getD 0 [] =
      (⟨[[9], [7]], 2, 1⟩ : PyMatrix).array.getD 1 [] ∧
    colEqPy ⟨[[7], [5]], 2, 1⟩ ⟨0, (2, 1)⟩ ⟨[[9], [7]], 2, 1⟩ ⟨0, (2, 1)⟩ false
      = .ok false := by
  decide

/-! ### C1: the determinant ignores the sign of row swaps (code bug) -/

/-- **C1 (code bug).** The determinant property row-reduces a copy
(`reduce`) and multiplies the diagonal, but `reduce` performs row
moves (`array.insert(j, array.pop(i))`) without tracking the sign
change a row swap induces on the determinant.  For the 2×2 matrix
`[[0,1],[1,0]]` (`a=0,b=1,c=1,d=0`, all arithmetic exact), the code
returns `1`, while `a*d - b*c = -1`.  A no-swap 2×2 instance
(`[[1,2],[3,4]]`) does return `ad - bc = -2`. -/
theorem determinant_swap_sign_bug :
    determinantPy ⟨[[0, 1], [1, 0]], 2, 2⟩ = .ok 1 ∧
    ((0 : ℚ) * 0 - 1 * 1 = -1) ∧ ((1 : ℚ) ≠ -1) ∧
    determinantPy ⟨[[1, 2], [3, 4]], 2, 2⟩ = .ok (1 * 4 - 2 * 3) := by
  decide

/-! ### C2: stamp-based view invalidation -/

theorem except_bind_error {α β : Type _} (e : PyErr) (f : α → Except PyErr β) :
    (Except.error e >>= f) = Except.error e := rfl

theorem except_bind_ok {α β : Type _} (a : α) (f : α → Except PyErr β) :
    ((Except.ok a : Except PyErr α) >>= f) = f a := rfl

theorem except_map_error {α β : Type _} (e : PyErr) (f : α → β) :
    (Except.error e : Except PyErr α).map f = .error e := rfl

theorem except_map_ok {α β : Type _} (a : α) (f : α → β) :
    (Except.ok a : Except PyErr α).map f = .ok (f a) := rfl

theorem except_pure_eq {α : Type _} (a : α) : (pure a : Except PyErr α) = .ok a := rfl

theorem except_throw_eq {α : Type _} (e : PyErr) :
    (throw e : Except PyErr α) = .error e := rfl

theorem validityCheck_stale {m : PyMatrix} {v : RCView} (h : v.stamp ≠ m.size) :
    validityCheck m v = .error (.brokenMatrixView brokenMsg) := by
  unfold validityCheck
  rw [if_pos h]

theorem validityCheck_fresh {m : PyMatrix} {i : Nat} :
    validityCheck m ⟨i, m.size⟩ = .ok () := by
  unfold validityCheck
  simp

/-- `Except.isOk`: the operation did not raise. -/
def exceptIsOk {α : Type _} : Except PyErr α → Bool
  | .ok _ => true
  | .error _ => false

/-- **C2.** For every Row or Column view created before its owning
matrix is resized to a different `(nrow, ncol)` (so its captured stamp
`st` differs from the live size), every non-trivial operation on that
view — indexing, length, iteration, equality, containment, addition,
subtraction, scalar multiplication, elementwise multiplication,
division, and the in-place variants — fails with a
ViewInvalidated (`BrokenMatrixView`) error; a view freshly obtained
after the resize (via `rows[k]`/`columns[k]`, stamped with the live
size) is returned successfully and every operation on it (with valid
operands) succeeds. -/
theorem view_invalidation (m : PyMatrix) (st : Nat × Nat) (i : Nat) (op : RCOp)
    (hst : st ≠ m.size) :
    runRowOp op m ⟨i, st⟩ = .error (.brokenMatrixView brokenMsg) ∧
    runColOp op m ⟨i, st⟩ = .error (.brokenMatrixView brokenMsg) ∧
    (∀ k : Int, 0 < k → k ≤ (m.nrow : Int) →
      rowsGetInt m k = .ok ⟨(k - 1).toNat, m.size⟩) ∧
    (∀ k : Int, 0 < k → k ≤ (m.ncol : Int) →
      columnsGetInt m k = .ok ⟨(k - 1).toNat, m.size⟩) ∧
    (RowOpValid op m i → exceptIsOk (runRowOp op m ⟨i, m.size⟩) = true) ∧
    (ColOpValid op m i → exceptIsOk (runColOp op m ⟨i, m.size⟩) = true) := by
  have hstale : validityCheck m ⟨i, st⟩ = .error (.brokenMatrixView brokenMsg) :=
    validityCheck_stale hst
  refine ⟨?_, ?_, ?_, ?_, ?_, ?_⟩
  · cases op <;>
      simp [runRowOp, rowGetInt, rowLen, rowIter, rowEqPy, rowContains,
        rcBinSeq, rcMatmulSeq, rcMulScalar, rcDivScalar, hstale,
        except_bind_error, except_map_error]
  · cases op <;>
      simp [runColOp, colGetInt, colLen, colIter, colEqPy, colContains,
        rcBinSeq, rcMatmulSeq, rcMulScalar, rcDivScalar, hstale,
        except_bind_error, except_map_error]
  · intro k hk1 hk2
    unfold rowsGetInt
    rw [if_pos ⟨hk1, hk2⟩]
  · intro k hk1 hk2
    unfold columnsGetInt
    rw [if_pos ⟨hk1, hk2⟩]
  · intro hv
    cases op <;>
      simp_all [runRowOp, rowGetInt, rowLen, rowIter, rowEqPy, rowContains,
        rcBinSeq, rcMatmulSeq, rcMulScalar, rcDivScalar, RowOpValid,
        validityCheck_fresh, except_bind_ok, except_map_ok, except_pure_eq,
        except_throw_eq, exceptIsOk] <;>
      split_ifs <;> simp_all [exceptIsOk, except_map_ok, except_map_error]
  · intro hv
    cases op <;>
      simp_all [runColOp, colGetInt, colLen, colIter, colEqPy, colContains,
        rcBinSeq, rcMatmulSeq, rcMulScalar, rcDivScalar, ColOpValid,
        validityCheck_fresh, except_bind_ok, except_map_ok, except_pure_eq,
        except_throw_eq, exceptIsOk] <;>
      split_ifs <;> simp_all [exceptIsOk, except_map_ok, except_map_error]

theorem view_invalidation_witness :
    ((1, 2) : Nat × Nat) ≠ (⟨[[1, 2], [3, 4]], 2, 2⟩ : PyMatrix).size ∧
    runRowOp .length ⟨[[1, 2], [3, 4]], 2, 2⟩ ⟨0, (1, 2)⟩ =
      .error (.brokenMatrixView brokenMsg) :=
  ⟨by decide,
    (view_invalidation ⟨[[1, 2], [3, 4]], 2, 2⟩ (1, 2) 0 .length (by decide)).1⟩

/-! ### C7: deletions never empty the matrix -/

theorem list_range_toFinset (n : Nat) : (List.range n).toFinset = Finset.range n := by
  ext x
  simp

theorem card_selected {s : AdjSlice} {n : Nat} (h : IsAdjustedFor s n) :
    ((List.range n).filter (fun i => delSelected s i)).length = sliceLength s := by
  obtain ⟨h1, h2, h3⟩ := h
  have hnd : ((List.range n).filter (fun i => delSelected s i)).Nodup :=
    (List.nodup_range n).filter _
  rw [← List.toFinset_card_of_nodup hnd, List.toFinset_filter, list_range_toFinset,
    ← Finset.card_range (sliceLength s)]
  apply Finset.card_bij' (fun i _ => (i - s.start) / s.step)
    (fun k _ => sliceIndex s k)
  · -- forward: a selected index maps into `range (sliceLength s)`
    intro a ha
    obtain ⟨han, hsel⟩ := Finset.mem_filter.mp ha
    have han' := Finset.mem_range.mp han
    simp only [delSelected, Bool.and_eq_true, decide_eq_true_eq, beq_iff_eq,
      Nat.lt_iff_add_one_le] at hsel
    obtain ⟨⟨hge, hlt⟩, hmod⟩ := hsel
    have hdvd : s.step ∣ (a - s.start) := Nat.dvd_of_mod_eq_zero hmod
    have hidx : sliceIndex s ((a - s.start) / s.step) = a := by
      unfold sliceIndex
      rw [Nat.div_mul_cancel hdvd]
      omega
    rw [Finset.mem_range, lt_sliceLength_iff h3, hidx]
    omega
  · -- backward: a slice position maps to a selected index
    intro k hk
    have hk' := Finset.mem_range.mp hk
    have hlt := (lt_sliceLength_iff h3 k).mp hk'
    refine Finset.mem_filter.mpr ⟨Finset.mem_range.mpr (by omega), ?_⟩
    simp only [delSelected, sliceIndex, Bool.and_eq_true, decide_eq_true_eq,
      beq_iff_eq]
    refine ⟨⟨by omega, ?_⟩, ?_⟩
    · unfold sliceIndex at hlt
      omega
    · have hc : s.start + k * s.step - s.start = k * s.step := by omega
      rw [hc, Nat.mul_mod_left]
  · intro a ha
    obtain ⟨han, hsel⟩ := Finset.mem_filter.mp ha
    simp only [delSelected, Bool.and_eq_true, decide_eq_true_eq, beq_iff_eq] at hsel
    obtain ⟨⟨hge, hlt⟩, hmod⟩ := hsel
    have hdvd : s.step ∣ (a - s.start) := Nat.dvd_of_mod_eq_zero hmod
    unfold sliceIndex
    rw [Nat.div_mul_cancel hdvd]
    omega
  · intro k hk
    unfold sliceIndex
    rw [Nat.add_sub_cancel_left, Nat.mul_div_cancel _ (by omega : 0 < s.step)]

theorem sliceLength_le {s : AdjSlice} {n : Nat} (h : IsAdjustedFor s n) :
    sliceLength s ≤ n := by
  rw [← card_selected h]
  calc ((List.range n).filter (fun i => delSelected s i)).length
      ≤ (List.range n).length := List.length_filter_le _ _
    _ = n := List.length_range n

theorem pyDelSlice_length_aux {α : Type _} (xs : List α) (p : Nat → Bool) :
    ∀ (l : List Nat), (∀ i ∈ l, i < xs.length) →
      (l.filterMap (fun i => if p i then none else xs.get? i)).length
        = (l.filter (fun i => !p i)).length
  | [], _ => rfl
  | i :: t, h => by
    have ht := pyDelSlice_length_aux xs p t
      (fun j hj => h j (List.mem_cons_of_mem i hj))
    simp only [List.filterMap_cons, List.filter_cons]
    by_cases hp : p i
    · rw [if_pos hp, if_neg (by simp [hp])]
      exact ht
    · have hi : i < xs.length := h i (List.mem_cons_self i t)
      rw [if_neg hp, List.get?_eq_get hi, if_pos (by simp [hp]),
        List.length_cons, ht, List.length_cons]

theorem length_pyDelSlice {α : Type _} {s : AdjSlice} {xs : List α}
    (h : IsAdjustedFor s xs.length) :
    (pyDelSlice s xs).length = xs.length - sliceLength s := by
  unfold pyDelSlice
  rw [pyDelSlice_length_aux xs (fun i => delSelected s i) (List.range xs.length)
    (fun i hi => List.mem_range.mp hi)]
  have h2 := List.length_eq_countP_add_countP (p := fun i => delSelected s i)
    (l := List.range xs.length)
  have hfun : (fun a => decide ¬(delSelected s a = true))
      = (fun i => !delSelected s i) := by
    funext a
    cases hsel : delSelected s a <;> simp [hsel]
  rw [hfun, List.length_range, List.countP_eq_length_filter,
    List.countP_eq_length_filter, card_selected h] at h2
  omega

theorem pyDelSlice_subset {α : Type _} {s : AdjSlice} {xs : List α} :
    ∀ y ∈ pyDelSlice s xs, y ∈ xs := by
  intro y hy
  unfold pyDelSlice at hy
  obtain ⟨i, _, hi⟩ := List.mem_filterMap.mp hy
  by_cases hp : delSelected s i
  · rw [if_pos hp] at hi
    cases hi
  · rw [if_neg hp] at hi
    exact List.get?_mem hi

theorem pyListSlice_subset {α : Type _} {s : AdjSlice} {xs : List α} :
    ∀ y ∈ pyListSlice s xs, y ∈ xs := by
  intro y hy
  unfold pyListSlice at hy
  obtain ⟨i, _, hi⟩ := List.mem_filterMap.mp hy
  exact List.get?_mem hi

theorem rowsDelIndex_empty {m : PyMatrix} {i : Int} (h1 : m.nrow = 1)
    (h2 : 0 < i) (h3 : i ≤ (m.nrow : Int)) :
    rowsDelIndex m i =
      .error (.invalidDimension "Emptying the matrix isn't allowed.") := by
  unfold rowsDelIndex
  rw [if_pos ⟨h2, h3⟩, if_pos h1]

theorem colsDelIndex_empty {m : PyMatrix} {i : Int} (h1 : m.ncol = 1)
    (h2 : 0 < i) (h3 : i ≤ (m.ncol : Int)) :
    colsDelIndex m i =
      .error (.invalidDimension "Emptying the matrix isn't allowed.") := by
  unfold colsDelIndex
  rw [if_pos ⟨h2, h3⟩, if_pos h1]

theorem rowsDelSlice_empty {m : PyMatrix} {s : PySlice} {a : AdjSlice}
    (ha : adjustSlice s m.nrow = .ok a) (hL : sliceLength a = m.nrow) :
    rowsDelSlice m s =
      .error (.invalidDimension "Emptying the matrix isn't allowed.") := by
  unfold rowsDelSlice
  rw [ha, except_bind_ok, if_pos hL, except_throw_eq, except_bind_error]

theorem colsDelSlice_empty {m : PyMatrix} {s : PySlice} {a : AdjSlice}
    (ha : adjustSlice s m.ncol = .ok a) (hL : sliceLength a = m.ncol) :
    colsDelSlice m s =
      .error (.invalidDimension "Emptying the matrix isn't allowed.") := by
  unfold colsDelSlice
  rw [ha, except_bind_ok, if_pos hL, except_throw_eq, except_bind_error]

theorem rowsDelIndex_inv {m : PyMatrix} (hm : MatrixInv m) {i : Int}
    {m' : PyMatrix} (h : rowsDelIndex m i = .ok m') : MatrixInv m' := by
  obtain ⟨hlen, hrows, hr, hc⟩ := hm
  unfold rowsDelIndex at h
  by_cases h1 : 0 < i ∧ i ≤ (m.nrow : Int)
  · rw [if_pos h1] at h
    by_cases h2 : m.nrow = 1
    · rw [if_pos h2] at h
      cases h
    · rw [if_neg h2] at h
      simp only [Except.ok.injEq] at h
      subst h
      refine ⟨?_, ?_, by show 1 ≤ m.nrow - 1; omega, hc⟩
      · have hidx : (i - 1).toNat < m.array.length := by rw [hlen]; omega
        rw [List.length_eraseIdx_of_lt hidx, hlen]
      · intro r hr'
        exact hrows r ((List.eraseIdx_sublist _ _).subset hr')
  · rw [if_neg h1] at h
    cases h

theorem colsDelIndex_inv {m : PyMatrix} (hm : MatrixInv m) {i : Int}
    {m' : PyMatrix} (h : colsDelIndex m i = .ok m') : MatrixInv m' := by
  obtain ⟨hlen, hrows, hr, hc⟩ := hm
  unfold colsDelIndex at h
  by_cases h1 : 0 < i ∧ i ≤ (m.ncol : Int)
  · rw [if_pos h1] at h
    by_cases h2 : m.ncol = 1
    · rw [if_pos h2] at h
      cases h
    · rw [if_neg h2] at h
      simp only [Except.ok.injEq] at h
      subst h
      refine ⟨by simpa using hlen, ?_, hr, by show 1 ≤ m.ncol - 1; omega⟩
      · intro r hr'
        obtain ⟨r0, hr0, hr0e⟩ := List.mem_map.mp hr'
        have hidx : (i - 1).toNat < r0.length := by
          rw [hrows r0 hr0]
          rcases h1 with ⟨h1a, h1b⟩
          omega
        rw [← hr0e, List.length_eraseIdx_of_lt hidx, hrows r0 hr0]
  · rw [if_neg h1] at h
    cases h

theorem rowsDelSlice_inv {m : PyMatrix} (hm : MatrixInv m) {s : PySlice}
    {m' : PyMatrix} (h : rowsDelSlice m s = .ok m') : MatrixInv m' := by
  obtain ⟨hlen, hrows, hr, hc⟩ := hm
  unfold rowsDelSlice at h
  cases ha : adjustSlice s m.nrow with
  | error e =>
    rw [ha, except_bind_error] at h
    cases h
  | ok a =>
    rw [ha, except_bind_ok] at h
    by_cases hL : sliceLength a = m.nrow
    · rw [if_pos hL, except_throw_eq, except_bind_error] at h
      cases h
    · rw [if_neg hL, except_pure_eq, except_bind_ok, except_pure_eq] at h
      simp only [Except.ok.injEq] at h
      subst h
      have hadj : IsAdjustedFor a m.nrow :=
        adjustSlice_isAdjustedFor (by omega) ha
      have hadj' : IsAdjustedFor a m.array.length := by rwa [hlen]
      have hle : sliceLength a ≤ m.nrow := sliceLength_le hadj
      refine ⟨?_, ?_, by show 1 ≤ m.nrow - sliceLength a; omega, hc⟩
      · rw [length_pyDelSlice hadj', hlen]
      · intro r hr'
        exact hrows r (pyDelSlice_subset r hr')

theorem colsDelSlice_inv {m : PyMatrix} (hm : MatrixInv m) {s : PySlice}
    {m' : PyMatrix} (h : colsDelSlice m s = .ok m') : MatrixInv m' := by
  obtain ⟨hlen, hrows, hr, hc⟩ := hm
  unfold colsDelSlice at h
  cases ha : adjustSlice s m.ncol with
  | error e =>
    rw [ha, except_bind_error] at h
    cases h
  | ok a =>
    rw [ha, except_bind_ok] at h
    by_cases hL : sliceLength a = m.ncol
    · rw [if_pos hL, except_throw_eq, except_bind_error] at h
      cases h
    · rw [if_neg hL, except_pure_eq, except_bind_ok, except_pure_eq] at h
      simp only [Except.ok.injEq] at h
      subst h
      have hadj : IsAdjustedFor a m.ncol :=
        adjustSlice_isAdjustedFor (by omega) ha
      have hle : sliceLength a ≤ m.ncol := sliceLength_le hadj
      refine ⟨by simpa using hlen, ?_, hr,
        by show 1 ≤ m.ncol - sliceLength a; omega⟩
      · intro r hr'
        obtain ⟨r0, hr0, hr0e⟩ := List.mem_map.mp hr'
        have hadj0 : IsAdjustedFor a r0.length := by rwa [hrows r0 hr0]
        rw [← hr0e, length_pyDelSlice hadj0, hrows r0 hr0]

theorem runDel_inv {m : PyMatrix} (hm : MatrixInv m) {op : DelOp}
    {m' : PyMatrix} (h : runDel op m = .ok m') : MatrixInv m' := by
  cases op with
  | rowIdx i => exact rowsDelIndex_inv hm h
  | rowSlice s => exact rowsDelSlice_inv hm h
  | colIdx i => exact colsDelIndex_inv hm h
  | colSlice s => exact colsDelSlice_inv hm h

theorem foldl_applyDel_inv :
    ∀ (ops : List DelOp) (m : PyMatrix), MatrixInv m →
      MatrixInv (ops.foldl applyDel m)
  | [], _, hm => hm
  | op :: ops, m, hm => by
    simp only [List.foldl_cons]
    apply foldl_applyDel_inv
    unfold applyDel
    cases h : runDel op m with
    | ok m' => exact runDel_inv hm h
    | error e => exact hm

/-- **C7.** For every matrix satisfying the data-model invariants, a
row or column deletion (by single index or by slice) that would remove
all remaining rows or columns fails with an EmptyMatrixError-class
error (`InvalidDimension`, "Emptying the matrix isn't allowed.") —
and, the embedding being pure, the store is untouched (the source
raises before mutating); every deletion that succeeds yields a matrix
that still satisfies the invariants (in particular `nrow ≥ 1` and
`ncol ≥ 1`); consequently no sequence of attempted deletions ever
produces a matrix with 0 rows or 0 columns. -/
theorem deletion_never_empties (m : PyMatrix) (hm : MatrixInv m) :
    (∀ i : Int, m.nrow = 1 → 0 < i → i ≤ (m.nrow : Int) →
      rowsDelIndex m i =
        .error (.invalidDimension "Emptying the matrix isn't allowed.")) ∧
    (∀ (i : Int) (m' : PyMatrix), rowsDelIndex m i = .ok m' → MatrixInv m') ∧
    (∀ (s : PySlice) (a : AdjSlice), adjustSlice s m.nrow = .ok a →
      sliceLength a = m.nrow →
      rowsDelSlice m s =
        .error (.invalidDimension "Emptying the matrix isn't allowed.")) ∧
    (∀ (s : PySlice) (m' : PyMatrix), rowsDelSlice m s = .ok m' → MatrixInv m') ∧
    (∀ i : Int, m.ncol = 1 → 0 < i → i ≤ (m.ncol : Int) →
      colsDelIndex m i =
        .error (.invalidDimension "Emptying the matrix isn't allowed.")) ∧
    (∀ (i : Int) (m' : PyMatrix), colsDelIndex m i = .ok m' → MatrixInv m') ∧
    (∀ (s : PySlice) (a : AdjSlice), adjustSlice s m.ncol = .ok a →
      sliceLength a = m.ncol →
      colsDelSlice m s =
        .error (.invalidDimension "Emptying the matrix isn't allowed.")) ∧
    (∀ (s : PySlice) (m' : PyMatrix), colsDelSlice m s = .ok m' → MatrixInv m') ∧
    (∀ ops : List DelOp, MatrixInv (ops.foldl applyDel m) ∧
      1 ≤ (ops.foldl applyDel m).nrow ∧ 1 ≤ (ops.foldl applyDel m).ncol) := by
  refine ⟨fun i h1 h2 h3 => rowsDelIndex_empty h1 h2 h3,
    fun i m' h => rowsDelIndex_inv hm h,
    fun s a ha hL => rowsDelSlice_empty ha hL,
    fun s m' h => rowsDelSlice_inv hm h,
    fun i h1 h2 h3 => colsDelIndex_empty h1 h2 h3,
    fun i m' h => colsDelIndex_inv hm h,
    fun s a ha hL => colsDelSlice_empty ha hL,
    fun s m' h => colsDelSlice_inv hm h,
    fun ops => ?_⟩
  have h := foldl_applyDel_inv ops m hm
  exact ⟨h, h.2.2.1, h.2.2.2⟩

theorem deletion_never_empties_witness :
    MatrixInv ⟨[[1]], 1, 1⟩ ∧
    rowsDelIndex ⟨[[1]], 1, 1⟩ 1 =
      .error (.invalidDimension "Emptying the matrix isn't allowed.") :=
  ⟨by decide,
    (deletion_never_empties ⟨[[1]], 1, 1⟩ (by decide)).1 1 rfl (by decide) (by decide)⟩

/-! ### C10: out-of-range `stop` is clamped, not an error -/

theorem adjustSlice_ok_clamped (s : PySlice) (n : Nat)
    (h1 : ∀ a, s.start = some a → 1 ≤ a)
    (h2 : ∀ b, s.stop = some b → 1 ≤ b)
    (h3 : ∀ c, s.step = some c → 1 ≤ c)
    (h4 : ∀ a b, s.start = some a → s.stop = some b → a ≤ b)
    (h5 : s.stop = none → ∀ a, s.start = some a → a ≤ (n : Int)) :
    ∃ r, adjustSlice s n = .ok r ∧
      ∀ b, s.stop = some b → (n : Int) < b → r.stop = n := by
  have hlt : ¬(givenLtOne s.start || givenLtOne s.stop || givenLtOne s.step)
      = true := by
    simp only [Bool.or_eq_true, givenLtOne_eq_true_iff]
    intro hcon
    rcases hcon with (hca | hcb) | hcc
    · obtain ⟨a, ha, hlt1⟩ := hca
      have := h1 a ha
      omega
    · obtain ⟨b, hb, hlt1⟩ := hcb
      have := h2 b hb
      omega
    · obtain ⟨c, hc, hlt1⟩ := hcc
      have := h3 c hc
      omega
  have hpast : ¬startPastLength s n = true := by
    rw [startPastLength_eq_true_iff]
    rintro ⟨hnone, a, ha, hgt⟩
    exact absurd (h5 hnone a ha) (by omega)
  have hgt : ¬startGtStop s = true := by
    rw [startGtStop_eq_true_iff]
    rintro ⟨a, b, ha, hb, hab⟩
    exact absurd (h4 a b ha hb) (by omega)
  unfold adjustSlice
  rw [if_neg hlt, if_neg hpast, if_neg hgt]
  refine ⟨_, rfl, ?_⟩
  intro b hb hnb
  have hb1 := h2 b hb
  simp only [hb]
  omega

/-- **C10.** For every slice whose given fields are all at least 1,
whose start (when given together with stop) does not exceed its stop,
and whose start (when stop is omitted) does not exceed the sequence
length, slice adjustment succeeds even when the given `stop` exceeds
the sequence length: the selection is silently clamped at the end of
the sequence (`r.stop = n`) instead of failing — and this holds on
every slicing path: `rows[s]`, `columns[s]`, and submatrix extraction
`matrix[rs, cs]` all succeed. -/
theorem slice_stop_clamping (s : PySlice) (n : Nat) (hn : 0 < n)
    (h1 : ∀ a, s.start = some a → 1 ≤ a)
    (h2 : ∀ b, s.stop = some b → 1 ≤ b)
    (h3 : ∀ c, s.step = some c → 1 ≤ c)
    (h4 : ∀ a b, s.start = some a → s.stop = some b → a ≤ b)
    (h5 : s.stop = none → ∀ a, s.start = some a → a ≤ (n : Int)) :
    (∃ r, adjustSlice s n = .ok r ∧
      ∀ b, s.stop = some b → (n : Int) < b → r.stop = n) ∧
    (∀ m : PyMatrix, m.nrow = n → exceptIsOk (rowsGetSlice m s) = true) ∧
    (∀ m : PyMatrix, m.ncol = n → exceptIsOk (columnsGetSlice m s) = true) ∧
    (∀ (m : PyMatrix) (cs : PySlice), MatrixInv m → m.nrow = n →
      (∀ a, cs.start = some a → 1 ≤ a) →
      (∀ b, cs.stop = some b → 1 ≤ b) →
      (∀ c, cs.step = some c → 1 ≤ c) →
      (∀ a b, cs.start = some a → cs.stop = some b → a ≤ b) →
      (cs.stop = none → ∀ a, cs.start = some a → a ≤ (m.ncol : Int)) →
      exceptIsOk (matrixGetSlice m s cs) = true) := by
  obtain ⟨r, hr, hclamp⟩ := adjustSlice_ok_clamped s n h1 h2 h3 h4 h5
  refine ⟨⟨r, hr, hclamp⟩, ?_, ?_, ?_⟩
  · intro m hm
    unfold rowsGetSlice
    rw [hm, hr, except_map_ok]
    rfl
  · intro m hm
    unfold columnsGetSlice
    rw [hm, hr, except_map_ok]
    rfl
  · intro m cs hMI hm hc1 hc2 hc3 hc4 hc5
    obtain ⟨hlen, hrows, hnr, hnc⟩ := hMI
    obtain ⟨rc, hrc, _⟩ := adjustSlice_ok_clamped cs m.ncol hc1 hc2 hc3 hc4 hc5
    unfold matrixGetSlice
    rw [hm, hr, except_bind_ok, hrc, except_bind_ok]
    have hadjr : IsAdjustedFor r m.nrow := by
      rw [hm]
      exact adjustSlice_isAdjustedFor hn hr
    have hadjc : IsAdjustedFor rc m.ncol :=
      adjustSlice_isAdjustedFor (by omega) hrc
    have hblocklen : (pyListSlice r m.array).length = sliceLength r :=
      pyListSlice_length (by rw [hlen]; exact hadjr.2.1) hadjr.2.2
    have hbne : (pyListSlice r m.array).map (fun row => pyListSlice rc row)
        ≠ [] := by
      intro hbad
      have hlb := congrArg List.length hbad
      rw [List.length_map, hblocklen, List.length_nil] at hlb
      have := sliceLength_pos hadjr
      omega
    have hconst : ∀ row ∈ (pyListSlice r m.array).map
        (fun row => pyListSlice rc row), row.length = sliceLength rc := by
      intro row hrow
      obtain ⟨r0, hr0, hr0e⟩ := List.mem_map.mp hrow
      have hr0m : r0 ∈ m.array := pyListSlice_subset r0 hr0
      rw [← hr0e]
      exact pyListSlice_length (by rw [hrows r0 hr0m]; exact hadjc.2.1) hadjc.2.2
    rw [fromArray_const_ok _ (sliceLength rc) hbne (sliceLength_pos hadjc) hconst]
    rfl

theorem slice_stop_clamping_witness :
    ∃ r, adjustSlice ⟨some 1, some 99, none⟩ 2 = .ok r ∧
      ∀ b, (⟨some 1, some 99, none⟩ : PySlice).stop = some b →
        ((2 : Nat) : Int) < b → r.stop = 2 :=
  (slice_stop_clamping ⟨some 1, some 99, none⟩ 2 (by decide)
    (fun a ha => by simp at ha; omega)
    (fun b hb => by simp at hb; omega)
    (fun c hc => by simp at hc)
    (fun a b ha hb => by simp at ha hb; omega)
    (fun hn => by simp at hn)).1

end MatrixPy
